import Mathlib

/-!
Verification of the MConfigR key-value store against its specification.

The development is a shallow embedding of the core of the repository:

* `src/src/mconfigurator.rs` — the `MConfig` store (`try_insert`, `get`,
  `try_get`, `remove`, `to_vec`, `obfuscate`/`deobfuscate`/`xor_buffer`);
* `src/src/mconfigurator/mconfig_builder.rs` — the builder
  (`try_parse`, `try_build`).

Rust `String`s are modelled as lists of natural numbers (their UTF-8
bytes), `HashMap<String, Option<String>>` as an association list carrying
the map's iteration order, and the random padding written by
`entries_to_vec` as an explicit argument.  Machine arithmetic never
overflows in the source (all quantities are small `usize` sums), so plain
`Nat` is used throughout.
-/

namespace MC

/-- Byte strings: lists of natural numbers (each below 256 in every real buffer). -/
abbrev Bytes := List Nat

/-- The error enumeration `MCError` of `src/src/mconfigurator.rs`. -/
inductive MCError where
  | TooShort
  | TooBig
  | BadHeader
  | UnknownVersion
  | TruncatedKey
  | TruncatedValue
  | MissingKey
  | InvalidUTF8
  | ValueTooBig
  | KeyTooBig
  deriving DecidableEq, Repr

/-- The entry collection `MCHashMap = HashMap<String, Option<String>>`, modelled as an
association list recording the map's (otherwise unspecified) iteration order.  Every
map built by the library has pairwise distinct keys. -/
abbrev Entries := List (Bytes × Option Bytes)

def MAGIC_HEADER_BYTES : Bytes := [0x4d, 0x43, 0x4f, 0x4e, 0x46]

def HEADER_SIZE : Nat := MAGIC_HEADER_BYTES.length + 1

def VERSION_INDEX : Nat := MAGIC_HEADER_BYTES.length

def MCONFIG_SIZE : Nat := 8192

def MAX_KEY_LEN : Nat := 255

def MAX_VALUE_LEN : Nat := 255

/-- `HashMap::get`: the value stored at a key, `none` when the key is absent. -/
def hmGet (m : Entries) (k : Bytes) : Option (Option Bytes) :=
  (m.find? (fun e => e.1 == k)).map (fun e => e.2)

/-- `HashMap::contains_key`. -/
def hmContains (m : Entries) (k : Bytes) : Bool :=
  m.any (fun e => e.1 == k)

/-- `HashMap::insert` (the new map): replaces the value in place when the key is
present, appends the binding otherwise.  The value returned by the Rust method is
`hmGet m k` of the map before the call. -/
def hmInsert (m : Entries) (k : Bytes) (v : Option Bytes) : Entries :=
  if hmContains m k then m.map (fun e => if e.1 == k then (k, v) else e)
  else m ++ [(k, v)]

/-- `HashMap::remove` (the new map). -/
def hmRemove (m : Entries) (k : Bytes) : Entries :=
  m.filter (fun e => !(e.1 == k))

/-- Is `b` a UTF-8 continuation byte (`0x80..=0xBF`)? -/
def isCont (b : Nat) : Bool := 0x80 ≤ b && b ≤ 0xBF

/-- The number of continuation bytes demanded by a UTF-8 leading byte (4 marks an
invalid leading byte: a bare continuation byte, an overlong prefix `C0`/`C1`, or a
byte above `F4`). -/
def contCount (b : Nat) : Nat :=
  if b ≤ 0x7F then 0
  else if 0xC2 ≤ b && b ≤ 0xDF then 1
  else if b = 0xE0 || (0xE1 ≤ b && b ≤ 0xEC) || b = 0xED || b = 0xEE || b = 0xEF then 2
  else if b = 0xF0 || (0xF1 ≤ b && b ≤ 0xF3) || b = 0xF4 then 3
  else 4

/-- Lower bound of the first continuation byte: `E0` forbids overlong three-byte
forms (`A0..`), `F0` forbids overlong four-byte forms (`90..`), all others `80..`. -/
def firstContLo (b : Nat) : Nat := if b = 0xE0 then 0xA0 else if b = 0xF0 then 0x90 else 0x80

/-- Upper bound of the first continuation byte: `ED` excludes surrogates (`..9F`),
`F4` excludes code points above U+10FFFF (`..8F`), all others `..BF`. -/
def firstContHi (b : Nat) : Nat := if b = 0xED then 0x9F else if b = 0xF4 then 0x8F else 0xBF

/-- Validity of a byte sequence as UTF-8, as checked by Rust's
`String::from_utf8`: ASCII one-byte sequences and well-formed 2–4 byte
sequences, with overlong forms, surrogates and code points above U+10FFFF
rejected. -/
def utf8Valid : Bytes → Bool
  | [] => true
  | b :: rest =>
    if b ≤ 0x7F then utf8Valid rest
    else
      match contCount b, rest with
      | 1, b1 :: r => (firstContLo b ≤ b1 && b1 ≤ firstContHi b) && utf8Valid r
      | 2, b1 :: b2 :: r =>
        (firstContLo b ≤ b1 && b1 ≤ firstContHi b) && isCont b2 && utf8Valid r
      | 3, b1 :: b2 :: b3 :: r =>
        (firstContLo b ≤ b1 && b1 ≤ firstContHi b) && isCont b2 && isCont b3 && utf8Valid r
      | _, _ => false

/-- One pass of the v0 XOR transform: byte `i` of the buffer is XORed with byte
`i % secret.length` of the secret, i.e. with the cycled secret stream; the starting
offset generalises the cycle position for the inductive proofs. -/
def xorFrom (secret : Bytes) : Nat → Bytes → Bytes
  | _, [] => []
  | i, b :: bs => (b ^^^ secret.getD (i % secret.length) 0) :: xorFrom secret (i + 1) bs

/-- `MConfig::xor_buffer`: zip the buffer with the cycled secret.  Rust's
`Iterator::cycle` over an empty secret is empty, so an empty secret leaves the
buffer unchanged. -/
def xor_buffer (buf : Bytes) (secret : Bytes) : Bytes :=
  if secret.isEmpty then buf else xorFrom secret 0 buf

/-- `MConfig::obfuscate`: `xor_buffer` when a secret is set (the version argument of
the source is unused in v0 and omitted). -/
def obfuscate (buffer : Bytes) (secret : Option Bytes) : Bytes :=
  match secret with
  | some s => xor_buffer buffer s
  | none => buffer

/-- `MConfig::deobfuscate`: identical to `obfuscate` (the transform is symmetric). -/
def deobfuscate (buffer : Bytes) (secret : Option Bytes) : Bytes :=
  match secret with
  | some s => xor_buffer buffer s
  | none => buffer

/-- Serialized length contribution of one entry:
`key_len + 1 + (value_len + 1 if a value is present, else 1)`. -/
def entryLen (e : Bytes × Option Bytes) : Nat :=
  e.1.length + 1 + (match e.2 with | some w => w.length + 1 | none => 1)

/-- Total serialized length of the entries of a map (without the sentinel). -/
def entriesLen (es : Entries) : Nat := (es.map entryLen).sum

/-- The byte encoding of one entry as written by `entries_to_vec`:
length-prefixed key, then either a length-prefixed value or a single `0`. -/
def encodeEntry (e : Bytes × Option Bytes) : Bytes :=
  e.1.length :: (e.1 ++ (match e.2 with | some w => w.length :: w | none => [0]))

/-- The concatenated encodings of the entries in iteration order. -/
def encodeEntries (es : Entries) : Bytes := (es.map encodeEntry).flatten

/-- `MConfig::entries_to_vec`: encoded entries, the `0` end-of-data sentinel, then
random padding (the random bytes drawn by the source are an explicit argument). -/
def entries_to_vec (es : Entries) (pad : Bytes) : Bytes :=
  encodeEntries es ++ 0 :: pad

/-- The size assertion inside `entries_to_vec`: the encoded entries plus the
sentinel fit into the space left after the header. -/
def entriesSizeAssert (es : Entries) : Prop :=
  (encodeEntries es).length + 1 ≤ MCONFIG_SIZE - HEADER_SIZE

/-- `MConfig::to_vec`: magic header, version byte, obfuscated entries-and-padding
region. -/
def to_vec (version : Nat) (es : Entries) (secret : Option Bytes) (pad : Bytes) : Bytes :=
  MAGIC_HEADER_BYTES ++ version :: obfuscate (entries_to_vec es pad) secret

/-- The `ValueTooBig` test of `try_insert`: a present value longer than 255 bytes. -/
def value_too_big (value : Option Bytes) : Bool :=
  match value with
  | some v => decide (v.length > MAX_VALUE_LEN)
  | none => false

/-- `MConfig::try_insert`, state-passing: the result of the call paired with the
entry collection after the call.  The projected size is the new entry's
contribution (`entryLen`, the exact `key.len + 1 + (value.len + 1 or 1)` term of the
source) plus the header size plus the fold over the existing entries.  The returned
old value is `self.entries.insert(key, value).unwrap_or(None)` in the source, i.e.
the previous binding with `None` substituted when the key was absent. -/
def try_insert (es : Entries) (key : Bytes) (value : Option Bytes) :
    Except MCError (Option Bytes) × Entries :=
  if key.length > MAX_KEY_LEN then (.error .KeyTooBig, es)
  else if value_too_big value then (.error .ValueTooBig, es)
  else
    let overall_len := entryLen (key, value) + (HEADER_SIZE + entriesLen es)
    if overall_len < MCONFIG_SIZE then
      (.ok ((hmGet es key).getD none), hmInsert es key value)
    else (.error .TooBig, es)

/-- `MConfig::try_get`: the stored optional value, or `MissingKey` when absent. -/
def try_get (es : Entries) (key : Bytes) : Except MCError (Option Bytes) :=
  match hmGet es key with
  | some v => .ok v
  | none => .error .MissingKey

/-- `MConfig::get`: `none` when the key is absent, `some v` when the key is bound
to the optional value `v`. -/
def get (es : Entries) (key : Bytes) : Option (Option Bytes) :=
  hmGet es key

/-- `MConfig::contains_key`. -/
def contains_key (es : Entries) (key : Bytes) : Bool :=
  hmContains es key

/-- `MConfig::remove`, state-passing: old value and the collection after the call. -/
def remove (es : Entries) (key : Bytes) : Option (Option Bytes) × Entries :=
  (hmGet es key, hmRemove es key)

/-- One fuelled run of the entry-walk loop of `MConfigBuilder::try_parse`.  Every
loop iteration consumes at least one byte of the region, so a fuel of
`region.length + 1` never runs out; the fuel keeps the recursion structural so
that concrete buffers evaluate inside the kernel. -/
def parseEntriesF : Nat → Bytes → Entries → Except MCError Entries
  | 0, _, entries => .ok entries
  | _ + 1, [], entries => .ok entries
  | fuel + 1, key_len :: rest, entries =>
    if key_len = 0 then .ok entries
    else if rest.length < key_len then .error .TruncatedKey
    else
      let key := rest.take key_len
      if utf8Valid key then
        match rest.drop key_len with
        | [] => .error .MissingKey
        | val_len :: rest2 =>
          if val_len = 0 then parseEntriesF fuel rest2 (hmInsert entries key none)
          else if rest2.length < val_len then .error .TruncatedValue
          else
            let val := rest2.take val_len
            if utf8Valid val then
              parseEntriesF fuel (rest2.drop val_len) (hmInsert entries key (some val))
            else .error .InvalidUTF8
      else .error .InvalidUTF8

/-- The entry walk of `try_parse` over a de-obfuscated region. -/
def parseEntries (region : Bytes) (entries : Entries) : Except MCError Entries :=
  parseEntriesF (region.length + 1) region entries

/-- `MConfigBuilder::try_parse`: de-obfuscate, then walk the entries starting from
an empty map. -/
def try_parse (buffer : Bytes) (secret : Option Bytes) : Except MCError Entries :=
  parseEntries (deobfuscate buffer secret) []

/-- `MConfigBuilder::try_build` on a builder that holds raw bytes: the structural
checks in source order, then the entry walk on the post-header region. -/
def try_build_loaded (raw : Bytes) (secret : Option Bytes) : Except MCError Entries :=
  if raw.length < HEADER_SIZE then .error .TooShort
  else if raw.length > MCONFIG_SIZE then .error .TooBig
  else if raw.take MAGIC_HEADER_BYTES.length ≠ MAGIC_HEADER_BYTES then .error .BadHeader
  else if raw.getD VERSION_INDEX 0 ≠ 0 then .error .UnknownVersion
  else try_parse (raw.drop HEADER_SIZE) secret

/-- The `MConfig` struct: version byte, entry collection, optional secret. -/
structure MConfig where
  version : Nat
  entries : Entries
  secret : Option Bytes

/-- `MConfigBuilder::try_build`: an empty store when no raw bytes were loaded,
otherwise the parsed store; the built store always has version 0 and carries the
builder's secret. -/
def try_build (secret : Option Bytes) (raw_bytes : Option Bytes) : Except MCError MConfig :=
  match raw_bytes with
  | some raw => (try_build_loaded raw secret).map (fun es => ⟨0, es, secret⟩)
  | none => .ok ⟨0, [], secret⟩

/-- Keys are pairwise distinct, the defining invariant of a hash map's entry list. -/
def KeysDistinct (es : Entries) : Prop :=
  es.Pairwise (fun a b => a.1 ≠ b.1)

/-- An entry whose encoding the parser decodes back to itself: nonempty valid-UTF-8
key and, when a value is present, a nonempty valid-UTF-8 value. -/
def goodEntry (e : Bytes × Option Bytes) : Prop :=
  e.1 ≠ [] ∧ utf8Valid e.1 = true ∧ ∀ w, e.2 = some w → w ≠ [] ∧ utf8Valid w = true

/-- The invariant the store's mutation contract maintains: distinct keys, every key
and value at most 255 bytes of valid UTF-8, and the encoded entries plus the
sentinel fitting in the space after the header. -/
def StoreWF (es : Entries) : Prop :=
  KeysDistinct es ∧
  (∀ e ∈ es, e.1.length ≤ MAX_KEY_LEN ∧ utf8Valid e.1 = true ∧
    ∀ w, e.2 = some w → w.length ≤ MAX_VALUE_LEN ∧ utf8Valid w = true) ∧
  entriesLen es + 1 ≤ MCONFIG_SIZE - HEADER_SIZE

/-- Entry collections produced from the empty store by a sequence of successful
`try_insert` calls.  The UTF-8 side conditions record that the Rust API only
accepts `String` keys and values. -/
inductive Reachable : Entries → Prop where
  | empty : Reachable []
  | insert (es : Entries) (k : Bytes) (v : Option Bytes) (res : Option Bytes)
      (hr : Reachable es)
      (hku : utf8Valid k = true)
      (hvu : ∀ w, v = some w → utf8Valid w = true)
      (hok : (try_insert es k v).1 = .ok res) :
      Reachable (try_insert es k v).2

/-- Two secrets generate the same cycled XOR stream (byte at every absolute
position coincides). -/
def cycleEq (a b : Bytes) : Prop :=
  ∀ i : Nat, a.getD (i % a.length) 0 = b.getD (i % b.length) 0

/-- A 255-byte ASCII key used by the boundary buffer below. -/
def bigKey (i : Nat) : Bytes := (48 + i) :: List.replicate 254 97

/-- Thirty-one valueless entries with 255-byte keys (257 encoded bytes each) and one
valueless entry with a 217-byte key (219 encoded bytes): together they encode to
exactly 8186 bytes, filling the whole post-header region with no room for the
sentinel. -/
def boundaryEntries : Entries :=
  ((List.range 31).map (fun i => (bigKey i, (none : Option Bytes)))) ++
    [(122 :: List.replicate 216 98, none)]

/-- An 8192-byte buffer whose entries region is exactly filled by entries: magic,
version 0, and the encoded entries with no terminating sentinel. -/
def boundaryBuf : Bytes :=
  MAGIC_HEADER_BYTES ++ 0 :: encodeEntries boundaryEntries

/-! ### The XOR transform -/

theorem xorFrom_length (secret : Bytes) (i : Nat) (b : Bytes) :
    (xorFrom secret i b).length = b.length := by
  induction b generalizing i with
  | nil => rfl
  | cons x bs ih => simp [xorFrom, ih]

theorem xor_buffer_length (buf secret : Bytes) :
    (xor_buffer buf secret).length = buf.length := by
  unfold xor_buffer
  split
  · rfl
  · exact xorFrom_length ..

theorem obfuscate_length (buffer : Bytes) (secret : Option Bytes) :
    (obfuscate buffer secret).length = buffer.length := by
  cases secret with
  | none => rfl
  | some s => exact xor_buffer_length ..

theorem xorFrom_cancel (a b : Bytes) (h : cycleEq a b) (i : Nat) (buf : Bytes) :
    xorFrom b i (xorFrom a i buf) = buf := by
  induction buf generalizing i with
  | nil => rfl
  | cons x bs ih =>
    simp only [xorFrom]
    rw [← h i, Nat.xor_assoc, Nat.xor_self, Nat.xor_zero, ih]

theorem xorFrom_zero_stream (b : Bytes) (hb : ∀ i : Nat, b.getD (i % b.length) 0 = 0)
    (i : Nat) (buf : Bytes) : xorFrom b i buf = buf := by
  induction buf generalizing i with
  | nil => rfl
  | cons x bs ih => simp only [xorFrom]; rw [hb i, Nat.xor_zero, ih]

theorem xor_buffer_cancel_cycleEq (a b : Bytes) (h : cycleEq a b) (buf : Bytes) :
    xor_buffer (xor_buffer buf a) b = buf := by
  unfold xor_buffer
  by_cases ha : a.isEmpty <;> by_cases hb : b.isEmpty <;> simp only [ha, hb, if_true, if_false]
  · have ha' : a = [] := List.isEmpty_iff.mp ha
    exact xorFrom_zero_stream b (fun i => by rw [← h i, ha', List.getD_nil]) 0 buf
  · have hb' : b = [] := List.isEmpty_iff.mp hb
    exact xorFrom_zero_stream a (fun i => by rw [h i, hb', List.getD_nil]) 0 buf
  · exact xorFrom_cancel a b h 0 buf

theorem cycleEq_refl (a : Bytes) : cycleEq a a := fun _ => rfl

theorem deobfuscate_obfuscate (buffer : Bytes) (secret : Option Bytes) :
    deobfuscate (obfuscate buffer secret) secret = buffer := by
  cases secret with
  | none => rfl
  | some s => exact xor_buffer_cancel_cycleEq s s (cycleEq_refl s) buffer

/-! ### UTF-8 and encoding lengths -/

theorem utf8Valid_of_ascii (l : Bytes) (h : ∀ x ∈ l, x ≤ 0x7F) : utf8Valid l = true := by
  induction l with
  | nil => rfl
  | cons b rest ih =>
    have hb : b ≤ 0x7F := h b (by simp)
    rw [utf8Valid.eq_def]
    dsimp only
    rw [if_pos hb]
    exact ih (fun x hx => h x (List.mem_cons_of_mem _ hx))

theorem encodeEntry_length (e : Bytes × Option Bytes) :
    (encodeEntry e).length = entryLen e := by
  obtain ⟨k, v⟩ := e
  cases v with
  | none =>
    show (k.length :: (k ++ [0])).length = k.length + 1 + 1
    rw [List.length_cons, List.length_append]
    rfl
  | some w =>
    show (k.length :: (k ++ (w.length :: w))).length = k.length + 1 + (w.length + 1)
    rw [List.length_cons, List.length_append, List.length_cons]
    omega

theorem encodeEntries_cons (e : Bytes × Option Bytes) (es : Entries) :
    encodeEntries (e :: es) = encodeEntry e ++ encodeEntries es := by
  simp [encodeEntries]

theorem encodeEntries_length (es : Entries) :
    (encodeEntries es).length = entriesLen es := by
  induction es with
  | nil => rfl
  | cons e es ih =>
    rw [encodeEntries_cons, List.length_append, ih, encodeEntry_length]
    simp [entriesLen]

theorem entriesLen_cons (e : Bytes × Option Bytes) (es : Entries) :
    entriesLen (e :: es) = entryLen e + entriesLen es := by
  simp [entriesLen]

/-! ### The hash-map model -/

theorem hmGet_eq_none_of_not_contains (m : Entries) (k : Bytes)
    (h : hmContains m k = false) : hmGet m k = none := by
  have h' : ∀ e ∈ m, ¬((e.1 == k) = true) := by
    intro e he
    intro hek
    have : hmContains m k = true := by
      simp only [hmContains, List.any_eq_true]
      exact ⟨e, he, hek⟩
    rw [this] at h; cases h
  simp only [hmGet, List.find?_eq_none.mpr h']
  rfl

theorem hmGet_map_replace (m : Entries) (k : Bytes) (v : Option Bytes)
    (h : hmContains m k = true) :
    hmGet (m.map (fun e => if e.1 == k then (k, v) else e)) k = some v := by
  induction m with
  | nil => simp [hmContains] at h
  | cons e es ih =>
    by_cases he : (e.1 == k) = true
    · simp [hmGet, List.find?, he]
    · have h' : hmContains es k = true := by
        simp only [hmContains, List.any_eq_true] at h ⊢
        rcases h with ⟨x, hx, hxk⟩
        rcases List.mem_cons.mp hx with rfl | hx'
        · exact absurd hxk he
        · exact ⟨x, hx', hxk⟩
      have := ih h'
      simpa [hmGet, List.find?, he] using this

theorem hmGet_append_single (m : Entries) (k : Bytes) (v : Option Bytes)
    (h : hmContains m k = false) :
    hmGet (m ++ [(k, v)]) k = some v := by
  induction m with
  | nil => simp [hmGet, List.find?]
  | cons e es ih =>
    have he : ¬((e.1 == k) = true) := by
      intro hek
      have : hmContains (e :: es) k = true := by
        simp only [hmContains, List.any_eq_true]
        exact ⟨e, List.mem_cons_self .., hek⟩
      rw [this] at h; cases h
    have h' : hmContains es k = false := by
      by_contra hc
      have hc' : hmContains es k = true := by
        cases hx : hmContains es k
        · exact absurd hx hc
        · rfl
      have : hmContains (e :: es) k = true := by
        simp only [hmContains, List.any_eq_true] at hc' ⊢
        rcases hc' with ⟨x, hx, hxk⟩
        exact ⟨x, List.mem_cons_of_mem _ hx, hxk⟩
      rw [this] at h; cases h
    have := ih h'
    simpa [hmGet, List.find?, he] using this

theorem hmGet_hmInsert_self (m : Entries) (k : Bytes) (v : Option Bytes) :
    hmGet (hmInsert m k v) k = some v := by
  unfold hmInsert
  split
  · exact hmGet_map_replace m k v (by assumption)
  · refine hmGet_append_single m k v ?_
    rename_i h
    cases hx : hmContains m k
    · rfl
    · exact absurd hx h

/-! ### The parser: fuel, single entries, entry sequences -/

theorem parseEntriesF_sentinel (fuel : Nat) (rest : Bytes) (m : Entries) :
    parseEntriesF (fuel + 1) (0 :: rest) m = .ok m := by
  rw [parseEntriesF]
  simp

theorem parseEntriesF_mono (f1 : Nat) : ∀ (f2 : Nat) (region : Bytes) (m : Entries),
    region.length < f1 → region.length < f2 →
    parseEntriesF f1 region m = parseEntriesF f2 region m := by
  induction f1 with
  | zero => intro f2 region m h1 _; exact absurd h1 (Nat.not_lt_zero _)
  | succ n ih =>
    intro f2 region m h1 h2
    cases f2 with
    | zero => exact absurd h2 (Nat.not_lt_zero _)
    | succ n2 =>
      cases region with
      | nil => rfl
      | cons b rest =>
        by_cases hb : b = 0
        · subst hb; rw [parseEntriesF_sentinel, parseEntriesF_sentinel]
        · have hlr : rest.length < n := by
            rw [List.length_cons] at h1; omega
          have hlr2 : rest.length < n2 := by
            rw [List.length_cons] at h2; omega
          rw [parseEntriesF, parseEntriesF]
          simp only [if_neg hb]
          by_cases hlen : rest.length < b
          · simp only [if_pos hlen]
          · simp only [if_neg hlen]
            by_cases hu : utf8Valid (rest.take b) = true
            · simp only [hu, if_pos rfl]
              have hdl : (rest.drop b).length = rest.length - b := List.length_drop ..
              cases hdrop : rest.drop b with
              | nil => rfl
              | cons vl rest2 =>
                have hl2 : rest2.length < rest.length := by
                  rw [hdrop] at hdl
                  rw [List.length_cons] at hdl
                  omega
                by_cases hvl : vl = 0
                · simp only [if_pos hvl]
                  exact ih n2 rest2 _ (by omega) (by omega)
                · simp only [if_neg hvl]
                  by_cases hlen2 : rest2.length < vl
                  · simp only [if_pos hlen2]
                  · simp only [if_neg hlen2]
                    by_cases hu2 : utf8Valid (rest2.take vl) = true
                    · simp only [hu2, if_pos rfl]
                      have : (rest2.drop vl).length ≤ rest2.length := by
                        rw [List.length_drop]; omega
                      exact ih n2 (rest2.drop vl) _ (by omega) (by omega)
                    · simp only [hu2]
                      simp
            · simp only [hu]
              simp

theorem parseEntries_nil (m : Entries) : parseEntries [] m = .ok m := rfl

theorem parseEntries_sentinel (rest : Bytes) (m : Entries) :
    parseEntries (0 :: rest) m = .ok m := by
  unfold parseEntries
  rw [List.length_cons]
  exact parseEntriesF_sentinel ..

theorem parseEntries_entry (k : Bytes) (v : Option Bytes) (rest : Bytes) (m : Entries)
    (hk0 : k ≠ []) (hku : utf8Valid k = true)
    (hv : ∀ w, v = some w → w ≠ [] ∧ utf8Valid w = true) :
    parseEntries (encodeEntry (k, v) ++ rest) m = parseEntries rest (hmInsert m k v) := by
  have hkl : ¬(k.length = 0) := fun h => hk0 (List.eq_nil_of_length_eq_zero h)
  cases v with
  | none =>
    have hregion : encodeEntry (k, none) ++ rest = k.length :: (k ++ (0 :: rest)) := by
      show (k.length :: (k ++ [0])) ++ rest = _
      simp [List.append_assoc]
    rw [hregion]
    unfold parseEntries
    rw [List.length_cons]
    rw [parseEntriesF]
    have hlen1 : ¬((k ++ 0 :: rest).length < k.length) := by
      rw [List.length_append, List.length_cons]; omega
    rw [if_neg hkl, if_neg hlen1]
    simp only [List.take_left, List.drop_left, hku, if_true]
    simp
    exact parseEntriesF_mono _ _ rest (hmInsert m k none) (by omega) (by omega)
  | some w =>
    obtain ⟨hw0, hwu⟩ := hv w rfl
    have hwl : ¬(w.length = 0) := fun h => hw0 (List.eq_nil_of_length_eq_zero h)
    have hregion : encodeEntry (k, some w) ++ rest =
        k.length :: (k ++ (w.length :: (w ++ rest))) := by
      show (k.length :: (k ++ (w.length :: w))) ++ rest = _
      simp [List.append_assoc]
    rw [hregion]
    unfold parseEntries
    rw [List.length_cons]
    rw [parseEntriesF]
    have hlen1 : ¬((k ++ (w.length :: (w ++ rest))).length < k.length) := by
      rw [List.length_append, List.length_cons, List.length_append]; omega
    have hlen2 : ¬((w ++ rest).length < w.length) := by
      rw [List.length_append]; omega
    rw [if_neg hkl, if_neg hlen1]
    simp [List.take_left, List.drop_left, hku, hwu, hwl, hlen2]
    exact parseEntriesF_mono _ _ rest (hmInsert m k (some w)) (by omega) (by omega)

theorem parseEntries_entries (es : Entries) (suffix : Bytes) (m : Entries)
    (h : ∀ e ∈ es, goodEntry e) :
    parseEntries (encodeEntries es ++ suffix) m =
      parseEntries suffix (es.foldl (fun acc e => hmInsert acc e.1 e.2) m) := by
  induction es generalizing m with
  | nil => simp [encodeEntries]
  | cons e es ih =>
    obtain ⟨k, v⟩ := e
    have hg := h (k, v) (List.mem_cons_self ..)
    rw [encodeEntries_cons, List.append_assoc,
      parseEntries_entry k v _ m hg.1 hg.2.1 hg.2.2,
      ih _ (fun x hx => h x (List.mem_cons_of_mem _ hx))]
    rfl

theorem foldl_hmInsert_fresh : ∀ (es m : Entries),
    (∀ e ∈ es, hmContains m e.1 = false) → KeysDistinct es →
    es.foldl (fun acc e => hmInsert acc e.1 e.2) m = m ++ es := by
  intro es
  induction es with
  | nil => intro m _ _; simp
  | cons e es ih =>
    intro m hfresh hdist
    rw [List.foldl_cons]
    have he : hmContains m e.1 = false := hfresh e (List.mem_cons_self ..)
    have h1 : hmInsert m e.1 e.2 = m ++ [e] := by
      unfold hmInsert
      rw [if_neg (by rw [he]; exact Bool.false_ne_true)]
    have hdt : KeysDistinct es := (List.pairwise_cons.mp hdist).2
    have hne : ∀ x ∈ es, e.1 ≠ x.1 := (List.pairwise_cons.mp hdist).1
    rw [h1, ih (m ++ [e]) ?_ hdt]
    · rw [List.append_assoc]
      rfl
    · intro x hx
      have h2 : hmContains (m ++ [e]) x.1 = (hmContains m x.1 || hmContains [e] x.1) := by
        unfold hmContains
        exact List.any_append ..
      rw [h2, hfresh x (List.mem_cons_of_mem _ hx)]
      have : (e.1 == x.1) = false := beq_eq_false_iff_ne.mpr (hne x hx)
      simp [hmContains, this]

/-! ### The builder's structural checks on a well-shaped buffer -/

theorem bool_eq_false {b : Bool} (h : ¬(b = true)) : b = false := by
  cases b
  · rfl
  · exact absurd rfl h

theorem try_build_loaded_header (R : Bytes) (s : Option Bytes) (h : R.length ≤ 8186) :
    try_build_loaded (MAGIC_HEADER_BYTES ++ 0 :: R) s = try_parse R s := by
  unfold try_build_loaded
  have h5 : MAGIC_HEADER_BYTES.length = 5 := rfl
  have hlen : (MAGIC_HEADER_BYTES ++ 0 :: R).length = R.length + 6 := by
    rw [List.length_append, List.length_cons, h5]
    omega
  rw [if_neg (by rw [hlen]; show ¬(R.length + 6 < 6); omega)]
  rw [if_neg (by rw [hlen]; show ¬(R.length + 6 > 8192); omega)]
  rw [if_neg (by
    rw [List.take_left]
    exact fun hne => hne rfl)]
  rw [if_neg (by
    show ¬((MAGIC_HEADER_BYTES ++ 0 :: R).getD 5 0 ≠ 0)
    simp [MAGIC_HEADER_BYTES])]
  have hdrop : (MAGIC_HEADER_BYTES ++ 0 :: R).drop HEADER_SIZE = R := by
    rw [show MAGIC_HEADER_BYTES ++ 0 :: R = (MAGIC_HEADER_BYTES ++ [0]) ++ R by simp]
    exact List.drop_left' rfl
  rw [hdrop]

/-! ### Inversion of `try_insert` -/

theorem try_insert_ok_inv (es : Entries) (k : Bytes) (v : Option Bytes) (res : Option Bytes)
    (h : (try_insert es k v).1 = .ok res) :
    k.length ≤ MAX_KEY_LEN ∧ (∀ w, v = some w → w.length ≤ MAX_VALUE_LEN) ∧
    entryLen (k, v) + (HEADER_SIZE + entriesLen es) < MCONFIG_SIZE ∧
    res = (hmGet es k).getD none ∧ (try_insert es k v).2 = hmInsert es k v := by
  unfold try_insert at h ⊢
  by_cases hk : k.length > MAX_KEY_LEN
  · rw [if_pos hk] at h; exact absurd h (by simp)
  · rw [if_neg hk] at h ⊢
    by_cases hv : value_too_big v = true
    · rw [if_pos hv] at h; exact absurd h (by simp)
    · rw [if_neg hv] at h ⊢
      by_cases hlen : entryLen (k, v) + (HEADER_SIZE + entriesLen es) < MCONFIG_SIZE
      · rw [if_pos hlen] at h ⊢
        have hres : res = (hmGet es k).getD none := by
          have h' : Except.ok ((hmGet es k).getD none) =
              (Except.ok res : Except MCError (Option Bytes)) := h
          injection h' with h3
          exact h3.symm
        have hvb : ∀ w, v = some w → w.length ≤ MAX_VALUE_LEN := by
          intro w hw
          subst hw
          simp [value_too_big] at hv
          omega
        exact ⟨by omega, hvb, hlen, hres, rfl⟩
      · rw [if_neg hlen] at h
        exact absurd h (by simp)

theorem try_insert_error_state (es : Entries) (k : Bytes) (v : Option Bytes) (e : MCError)
    (h : (try_insert es k v).1 = .error e) : (try_insert es k v).2 = es := by
  unfold try_insert at h ⊢
  by_cases hk : k.length > MAX_KEY_LEN
  · rw [if_pos hk]
  · rw [if_neg hk] at h ⊢
    by_cases hv : value_too_big v = true
    · rw [if_pos hv]
    · rw [if_neg hv] at h ⊢
      by_cases hlen : entryLen (k, v) + (HEADER_SIZE + entriesLen es) < MCONFIG_SIZE
      · rw [if_pos hlen] at h; exact absurd h (by simp)
      · rw [if_neg hlen]

/-! ### Preservation of the store invariant -/

theorem mem_hmInsert (m : Entries) (k : Bytes) (v : Option Bytes)
    (e : Bytes × Option Bytes) (he : e ∈ hmInsert m k v) : e ∈ m ∨ e = (k, v) := by
  unfold hmInsert at he
  split at he
  · rcases List.mem_map.mp he with ⟨x, hx, hfx⟩
    by_cases hxk : (x.1 == k) = true
    · rw [if_pos hxk] at hfx
      exact Or.inr hfx.symm
    · rw [if_neg hxk] at hfx
      exact Or.inl (hfx ▸ hx)
  · rcases List.mem_append.mp he with hx | hx
    · exact Or.inl hx
    · exact Or.inr (List.mem_singleton.mp hx)

theorem hmInsert_keysDistinct (m : Entries) (k : Bytes) (v : Option Bytes)
    (hd : KeysDistinct m) : KeysDistinct (hmInsert m k v) := by
  unfold hmInsert
  split
  · unfold KeysDistinct
    rw [List.pairwise_map]
    refine hd.imp ?_
    intro a b hab
    by_cases ha : (a.1 == k) = true <;> by_cases hb : (b.1 == k) = true
    · exact absurd ((eq_of_beq ha).trans (eq_of_beq hb).symm) hab
    · rw [if_pos ha, if_neg hb]
      exact fun hkb => hb (beq_iff_eq.mpr hkb.symm)
    · rw [if_neg ha, if_pos hb]
      exact fun hak => ha (beq_iff_eq.mpr hak)
    · rw [if_neg ha, if_neg hb]
      exact hab
  · rename_i hcon
    have hfresh : ∀ e ∈ m, e.1 ≠ k := by
      intro e he hek
      have : hmContains m k = true := by
        simp only [hmContains, List.any_eq_true]
        exact ⟨e, he, beq_iff_eq.mpr hek⟩
      exact hcon this
    unfold KeysDistinct
    rw [List.pairwise_append]
    refine ⟨hd, List.pairwise_singleton .., ?_⟩
    intro a ha b hb
    rw [List.mem_singleton.mp hb]
    exact hfresh a ha

theorem map_replace_id (es : Entries) (k : Bytes) (v : Option Bytes)
    (h : ∀ x ∈ es, (x.1 == k) = false) :
    es.map (fun e => if e.1 == k then (k, v) else e) = es := by
  induction es with
  | nil => rfl
  | cons e es ih =>
    rw [List.map_cons, if_neg (by rw [h e (List.mem_cons_self ..)]; exact Bool.false_ne_true),
      ih (fun x hx => h x (List.mem_cons_of_mem _ hx))]

theorem entriesLen_map_replace (k : Bytes) (v : Option Bytes) : ∀ (m : Entries),
    KeysDistinct m →
    entriesLen (m.map (fun e => if e.1 == k then (k, v) else e)) ≤
      entriesLen m + entryLen (k, v) := by
  intro m
  induction m with
  | nil => intro _; simp [entriesLen, List.map_nil]
  | cons e es ih =>
    intro hd
    obtain ⟨hne, hdt⟩ := List.pairwise_cons.mp hd
    rw [List.map_cons]
    by_cases he : (e.1 == k) = true
    · rw [if_pos he]
      have hnok : ∀ x ∈ es, (x.1 == k) = false := by
        intro x hx
        refine beq_eq_false_iff_ne.mpr ?_
        intro hxk
        exact hne x hx ((eq_of_beq he).trans hxk.symm)
      rw [map_replace_id es k v hnok, entriesLen_cons, entriesLen_cons]
      omega
    · rw [if_neg he, entriesLen_cons, entriesLen_cons]
      have := ih hdt
      omega

theorem entriesLen_hmInsert_le (m : Entries) (k : Bytes) (v : Option Bytes)
    (hd : KeysDistinct m) :
    entriesLen (hmInsert m k v) ≤ entriesLen m + entryLen (k, v) := by
  unfold hmInsert
  split
  · exact entriesLen_map_replace k v m hd
  · rw [entriesLen, List.map_append, List.sum_append]
    simp [entriesLen, entryLen]

theorem reachable_storeWF (es : Entries) (h : Reachable es) : StoreWF es := by
  induction h with
  | empty =>
    refine ⟨List.Pairwise.nil, by simp, ?_⟩
    show entriesLen [] + 1 ≤ MCONFIG_SIZE - HEADER_SIZE
    simp [entriesLen, MCONFIG_SIZE, HEADER_SIZE, MAGIC_HEADER_BYTES]
  | insert es k v res hr hku hvu hok ih =>
    obtain ⟨hk, hv, hlen, _, hstate⟩ := try_insert_ok_inv es k v res hok
    rw [hstate]
    obtain ⟨hd, hgood, hsize⟩ := ih
    refine ⟨hmInsert_keysDistinct es k v hd, ?_, ?_⟩
    · intro e he
      rcases mem_hmInsert es k v e he with hm | rfl
      · exact hgood e hm
      · exact ⟨hk, hku, fun w hw => ⟨hv w hw, hvu w hw⟩⟩
    · have hle := entriesLen_hmInsert_le es k v hd
      have h6 : HEADER_SIZE = 6 := rfl
      have h8 : MCONFIG_SIZE = 8192 := rfl
      omega

/-! ### Lookup is invariant under permutation of a distinct-key list -/

theorem hmGet_perm : ∀ {l1 l2 : Entries}, l1.Perm l2 → KeysDistinct l1 →
    ∀ k, hmGet l1 k = hmGet l2 k := by
  intro l1 l2 hp
  induction hp with
  | nil => intro _ _; rfl
  | cons x p ih =>
    intro hd k
    by_cases hx : (x.1 == k) = true
    · simp [hmGet, List.find?_cons, hx]
    · have hx' := bool_eq_false hx
      have := ih (List.pairwise_cons.mp hd).2 k
      simp only [hmGet, List.find?_cons, hx'] at this ⊢
      exact this
  | swap x y l =>
    intro hd k
    have hyx : y.1 ≠ x.1 := (List.pairwise_cons.mp hd).1 x (List.mem_cons_self ..)
    by_cases hy : (y.1 == k) = true <;> by_cases hx : (x.1 == k) = true
    · exact absurd ((eq_of_beq hy).trans (eq_of_beq hx).symm) hyx
    · simp [hmGet, List.find?_cons, hy, bool_eq_false hx]
    · simp [hmGet, List.find?_cons, bool_eq_false hy, hx]
    · simp [hmGet, List.find?_cons, bool_eq_false hy, bool_eq_false hx]
  | trans p1 p2 ih1 ih2 =>
    intro hd k
    rw [ih1 hd k, ih2 ((List.Perm.pairwise_iff (fun h => Ne.symm h) p1).mp hd) k]

theorem storeWF_perm (es es2 : Entries) (hp : es2.Perm es) (h : StoreWF es) :
    StoreWF es2 := by
  obtain ⟨hd, hgood, hsize⟩ := h
  refine ⟨(List.Perm.pairwise_iff (fun h => Ne.symm h) hp).mpr hd, ?_, ?_⟩
  · intro e he
    exact hgood e (hp.subset he)
  · have : entriesLen es2 = entriesLen es := (hp.map entryLen).sum_eq
    omega

/-! ### Round-trip assembly -/

theorem entries_to_vec_length (es : Entries) (pad : Bytes) :
    (entries_to_vec es pad).length = entriesLen es + 1 + pad.length := by
  unfold entries_to_vec
  rw [List.length_append, List.length_cons, encodeEntries_length]
  omega

theorem to_vec_length (version : Nat) (es : Entries) (secret : Option Bytes) (pad : Bytes) :
    (to_vec version es secret pad).length = 6 + (entries_to_vec es pad).length := by
  unfold to_vec
  rw [List.length_append, List.length_cons, obfuscate_length]
  have h5 : MAGIC_HEADER_BYTES.length = 5 := rfl
  omega

/-- Core round trip: serializing the entry sequence `es2` with secret `sA` and
parsing with a secret `sB` whose de-obfuscation undoes the obfuscation reproduces
`es2` literally, for any sequence of distinct-keyed parser-decodable entries whose
encoding fits the region. -/
theorem round_trip_core (es2 : Entries) (pad : Bytes) (sA sB : Option Bytes)
    (hundo : deobfuscate (obfuscate (entries_to_vec es2 pad) sA) sB = entries_to_vec es2 pad)
    (hd : KeysDistinct es2)
    (hgood : ∀ e ∈ es2, goodEntry e)
    (hlen : (entries_to_vec es2 pad).length ≤ 8186) :
    try_build_loaded (to_vec 0 es2 sA pad) sB = .ok es2 := by
  unfold to_vec
  have hoblen : (obfuscate (entries_to_vec es2 pad) sA).length ≤ 8186 := by
    rw [obfuscate_length]; exact hlen
  rw [try_build_loaded_header _ sB hoblen]
  unfold try_parse
  rw [hundo]
  unfold entries_to_vec
  rw [parseEntries_entries es2 (0 :: pad) [] hgood, parseEntries_sentinel,
    foldl_hmInsert_fresh es2 [] (fun e _ => rfl) hd]
  rfl

/-! ### The boundary buffer: facts about `boundaryEntries` -/

theorem entryLen_none (k : Bytes) : entryLen (k, none) = k.length + 1 + 1 := rfl

theorem entryLen_some (k w : Bytes) : entryLen (k, some w) = k.length + 1 + (w.length + 1) := rfl

theorem bigKey_length (i : Nat) : (bigKey i).length = 255 := by
  unfold bigKey
  rw [List.length_cons, List.length_replicate]

theorem bigKey_good (i : Nat) (hi : i < 31) : goodEntry (bigKey i, none) := by
  refine ⟨fun h => List.noConfusion h, ?_, by intro w hw; cases hw⟩
  refine utf8Valid_of_ascii _ ?_
  intro x hx
  unfold bigKey at hx
  rcases List.mem_cons.mp hx with rfl | hx'
  · omega
  · rw [List.eq_of_mem_replicate hx']
    omega

theorem bigKey_ne (i j : Nat) (hij : i ≠ j) : bigKey i ≠ bigKey j := by
  intro h
  unfold bigKey at h
  injection h with h1 _
  omega

theorem boundary_keysDistinct : KeysDistinct boundaryEntries := by
  unfold KeysDistinct boundaryEntries
  rw [List.pairwise_append]
  refine ⟨?_, List.pairwise_singleton .., ?_⟩
  · rw [List.pairwise_map]
    refine (List.pairwise_lt_range 31).imp ?_
    intro a b hab
    exact bigKey_ne a b (Nat.ne_of_lt hab)
  · intro a ha b hb
    rw [List.mem_singleton.mp hb]
    rcases List.mem_map.mp ha with ⟨i, hi, rfl⟩
    have hi31 : i < 31 := List.mem_range.mp hi
    show bigKey i ≠ 122 :: List.replicate 216 98
    intro h
    unfold bigKey at h
    injection h with h1 _
    omega

theorem boundary_good : ∀ e ∈ boundaryEntries, goodEntry e := by
  intro e he
  unfold boundaryEntries at he
  rcases List.mem_append.mp he with hm | hz
  · rcases List.mem_map.mp hm with ⟨i, hi, rfl⟩
    exact bigKey_good i (List.mem_range.mp hi)
  · rw [List.mem_singleton.mp hz]
    refine ⟨fun h => List.noConfusion h, ?_, by intro w hw; cases hw⟩
    refine utf8Valid_of_ascii _ ?_
    intro x hx
    rcases List.mem_cons.mp hx with rfl | hx'
    · omega
    · rw [List.eq_of_mem_replicate hx']
      omega

theorem boundary_entriesLen : entriesLen boundaryEntries = 8186 := by
  unfold boundaryEntries entriesLen
  rw [List.map_append, List.sum_append, List.map_map]
  have h1 : (List.range 31).map (entryLen ∘ fun i => (bigKey i, (none : Option Bytes))) =
      (List.range 31).map (fun _ => 257) := by
    refine List.map_congr_left ?_
    intro i _
    show entryLen (bigKey i, none) = 257
    rw [entryLen_none, bigKey_length]
  rw [h1, List.map_const', List.sum_replicate, List.length_range, smul_eq_mul]
  have h2 : (List.map entryLen [((122 : Nat) :: List.replicate 216 98, (none : Option Bytes))]).sum = 219 := by
    rw [List.map_cons, List.map_nil, List.sum_cons, List.sum_nil, entryLen_none,
      List.length_cons, List.length_replicate]
    omega
  rw [h2]

/-- The secrets "a" and "aa" generate the same cycled XOR stream. -/
theorem cycleEq_97 : cycleEq [97] [97, 97] := by
  intro i
  show [97].getD (i % 1) 0 = [97, 97].getD (i % 2) 0
  rw [Nat.mod_one]
  rcases Nat.mod_two_eq_zero_or_one i with h | h <;> rw [h] <;> rfl

/-! ### The claims -/

/-- C7: the XOR-with-cycled-secret transform is self-inverse: applying `xor_buffer`
twice with the same nonempty secret returns the original buffer unchanged. -/
theorem C7_xor_self_inverse (buf secret : Bytes) (_h : secret ≠ []) :
    xor_buffer (xor_buffer buf secret) secret = buf :=
  xor_buffer_cancel_cycleEq secret secret (cycleEq_refl secret) buf

theorem C7_witness :
    ([97, 98] : Bytes) ≠ [] ∧ xor_buffer (xor_buffer [1, 2, 3] [97, 98]) [97, 98] = [1, 2, 3] :=
  ⟨by decide, C7_xor_self_inverse [1, 2, 3] [97, 98] (by decide)⟩

/-- C10: whenever try_insert returns an error (KeyTooBig, ValueTooBig or TooBig),
the entry collection is left exactly as it was before the call. -/
theorem C10_insert_atomic (es : Entries) (k : Bytes) (v : Option Bytes) (e : MCError)
    (h : (try_insert es k v).1 = .error e) : (try_insert es k v).2 = es :=
  try_insert_error_state es k v e h

set_option maxRecDepth 10000 in
theorem C10_witness :
    (try_insert [([107], none)] (List.replicate 256 97) none).1 = .error .KeyTooBig ∧
    (try_insert [([107], none)] (List.replicate 256 97) none).2 = [([107], none)] :=
  ⟨rfl, C10_insert_atomic [([107], none)] (List.replicate 256 97) none .KeyTooBig rfl⟩

/-- C4: with a key of at most 255 bytes and a value of at most 255 bytes, try_insert
fails with TooBig exactly when the projected total (header size plus the sum of the
existing entries' contributions — an already-present key counted strictly
additively — plus the new entry's own contribution) reaches or exceeds
MCONFIG_SIZE, and succeeds (inserting or replacing) whenever the total is strictly
below. -/
theorem C4_size_enforcement (es : Entries) (k : Bytes) (v : Option Bytes)
    (hk : k.length ≤ 255) (hv : ∀ w, v = some w → w.length ≤ 255) :
    (HEADER_SIZE + entriesLen es + entryLen (k, v) ≥ MCONFIG_SIZE →
      try_insert es k v = (.error .TooBig, es)) ∧
    (HEADER_SIZE + entriesLen es + entryLen (k, v) < MCONFIG_SIZE →
      try_insert es k v = (.ok ((hmGet es k).getD none), hmInsert es k v)) := by
  have h255 : MAX_KEY_LEN = 255 := rfl
  have h255v : MAX_VALUE_LEN = 255 := rfl
  have hkk : ¬(k.length > MAX_KEY_LEN) := by omega
  have hvv : ¬(value_too_big v = true) := by
    cases v with
    | none => simp [value_too_big]
    | some w =>
      have := hv w rfl
      simp only [value_too_big, decide_eq_true_eq]
      omega
  constructor
  · intro hge
    unfold try_insert
    rw [if_neg hkk, if_neg hvv, if_neg (by omega)]
  · intro hlt
    unfold try_insert
    rw [if_neg hkk, if_neg hvv, if_pos (by omega)]

theorem C4_witness : try_insert [] [107] none = (.ok none, [([107], none)]) := by
  have h := (C4_size_enforcement [] [107] none (by decide) (fun w hw => by cases hw)).2
    (by have h1 : HEADER_SIZE = 6 := rfl
        have h2 : entriesLen [] = 0 := rfl
        have h3 : entryLen ([107], none) = 3 := rfl
        have h4 : MCONFIG_SIZE = 8192 := rfl
        omega)
  exact h.trans rfl

/-- C5: structural validation of a loaded buffer, in order: TooShort below 6 bytes,
TooBig above 8192 bytes, BadHeader when the first five bytes are not the magic
sequence, UnknownVersion when byte 5 is nonzero — all before any entry decoding. -/
theorem C5_structural_checks (raw : Bytes) (secret : Option Bytes) :
    (raw.length < 6 → try_build_loaded raw secret = .error .TooShort) ∧
    (raw.length > 8192 → try_build_loaded raw secret = .error .TooBig) ∧
    (6 ≤ raw.length → raw.length ≤ 8192 → raw.take 5 ≠ MAGIC_HEADER_BYTES →
      try_build_loaded raw secret = .error .BadHeader) ∧
    (6 ≤ raw.length → raw.length ≤ 8192 → raw.take 5 = MAGIC_HEADER_BYTES →
      raw.getD 5 0 ≠ 0 → try_build_loaded raw secret = .error .UnknownVersion) := by
  have h6 : HEADER_SIZE = 6 := rfl
  have h8 : MCONFIG_SIZE = 8192 := rfl
  have h5 : MAGIC_HEADER_BYTES.length = 5 := rfl
  have hv5 : VERSION_INDEX = 5 := rfl
  refine ⟨?_, ?_, ?_, ?_⟩
  · intro h
    unfold try_build_loaded
    rw [if_pos (by omega)]
  · intro h
    unfold try_build_loaded
    rw [if_neg (by omega), if_pos (by omega)]
  · intro h1 h2 h3
    unfold try_build_loaded
    rw [if_neg (by omega), if_neg (by omega), if_pos (by rw [h5]; exact h3)]
  · intro h1 h2 h3 h4
    unfold try_build_loaded
    rw [if_neg (by omega), if_neg (by omega), if_neg (by rw [h5]; exact fun hn => hn h3),
      if_pos (by rw [hv5]; exact h4)]

theorem C5_witness : try_build_loaded [] none = .error .TooShort :=
  (C5_structural_checks [] none).1 (by decide)

/-- C3 (amended): on success, try_insert inserts or replaces the key and returns the
prior stored value collapsed through `unwrap_or(None)`: it returns None both when
the key was absent and when the key existed with no value, and Some(prior) when the
key existed with value prior; the claimed None/Some(None) distinction is not made. -/
theorem C3_insert_return_collapsed (es : Entries) (k : Bytes) (v : Option Bytes)
    (res : Option Bytes) (h : (try_insert es k v).1 = .ok res) :
    res = (hmGet es k).getD none ∧ (try_insert es k v).2 = hmInsert es k v := by
  have hh := try_insert_ok_inv es k v res h
  exact ⟨hh.2.2.2.1, hh.2.2.2.2⟩

theorem C3_counterexample :
    (try_insert [] [107] none).1 = .ok none ∧
    (try_insert [] [107] none).2 = [([107], none)] ∧
    (try_insert [([107], none)] [107] (some [118])).1 = .ok none ∧
    (try_insert [([107], none)] [107] (some [118])).1 = (try_insert [] [107] (some [118])).1 :=
  ⟨rfl, rfl, rfl, rfl⟩

theorem C3_witness :
    (some [118] : Option Bytes) = (hmGet [([107], some [118])] [107]).getD none ∧
    (try_insert [([107], some [118])] [107] (some [119])).2 =
      hmInsert [([107], some [118])] [107] (some [119]) :=
  C3_insert_return_collapsed [([107], some [118])] [107] (some [119]) (some [118]) rfl

/-- C8: tri-state get and try_get: get is None exactly on absent keys, Some None
after a successful valueless insert, Some (Some v) after a successful valued
insert; try_get fails with MissingKey exactly when the key is absent and otherwise
returns the possibly-absent value. -/
theorem C8_tri_state (es : Entries) (k : Bytes) (v : Bytes) (res1 res2 : Option Bytes) :
    (hmContains es k = false → get es k = none) ∧
    ((try_insert es k none).1 = .ok res1 → get (try_insert es k none).2 k = some none) ∧
    ((try_insert es k (some v)).1 = .ok res2 →
      get (try_insert es k (some v)).2 k = some (some v)) ∧
    (try_get es k = .error .MissingKey ↔ get es k = none) ∧
    (∀ u, get es k = some u → try_get es k = .ok u) := by
  refine ⟨?_, ?_, ?_, ?_, ?_⟩
  · intro h
    exact hmGet_eq_none_of_not_contains es k h
  · intro h
    show hmGet (try_insert es k none).2 k = some none
    rw [(try_insert_ok_inv es k none res1 h).2.2.2.2]
    exact hmGet_hmInsert_self ..
  · intro h
    show hmGet (try_insert es k (some v)).2 k = some (some v)
    rw [(try_insert_ok_inv es k (some v) res2 h).2.2.2.2]
    exact hmGet_hmInsert_self ..
  · unfold try_get get
    cases hmGet es k with
    | none => simp
    | some u => simp
  · intro u hu
    unfold try_get
    unfold get at hu
    rw [hu]

theorem C8_witness : get (try_insert [] [107] none).2 [107] = some none :=
  (C8_tri_state [] [107] [118] none none).2.1 rfl

/-- C6: the entry walk stops successfully at the first zero length byte or at the
end of the region; otherwise it fails with TruncatedKey when fewer key bytes remain
than declared, InvalidUTF8 when the declared key bytes or the declared value bytes
are not valid UTF-8, MissingKey when no value-length byte follows a key,
TruncatedValue when fewer value bytes remain than declared; and the last
occurrence of a duplicate key wins. -/
theorem C6_entry_walk (m : Entries) (rest : Bytes) (kl vl : Nat) (k w : Bytes)
    (v1 v2 : Option Bytes) :
    (parseEntries [] m = .ok m) ∧
    (parseEntries (0 :: rest) m = .ok m) ∧
    (kl ≠ 0 → rest.length < kl → parseEntries (kl :: rest) m = .error .TruncatedKey) ∧
    (kl ≠ 0 → ¬(rest.length < kl) → utf8Valid (rest.take kl) = false →
      parseEntries (kl :: rest) m = .error .InvalidUTF8) ∧
    (k ≠ [] → utf8Valid k = true → parseEntries (k.length :: k) m = .error .MissingKey) ∧
    (k ≠ [] → utf8Valid k = true → vl ≠ 0 → w.length < vl →
      parseEntries (k.length :: (k ++ vl :: w)) m = .error .TruncatedValue) ∧
    (k ≠ [] → utf8Valid k = true → vl ≠ 0 → ¬(w.length < vl) →
      utf8Valid (w.take vl) = false →
      parseEntries (k.length :: (k ++ vl :: w)) m = .error .InvalidUTF8) ∧
    (goodEntry (k, v1) → goodEntry (k, v2) →
      parseEntries (encodeEntry (k, v1) ++ (encodeEntry (k, v2) ++ [0])) [] = .ok [(k, v2)]) := by
  refine ⟨parseEntries_nil m, parseEntries_sentinel rest m, ?_, ?_, ?_, ?_, ?_, ?_⟩
  · intro hkl hlen
    unfold parseEntries
    rw [List.length_cons, parseEntriesF]
    rw [if_neg hkl, if_pos hlen]
  · intro hkl hlen hu
    unfold parseEntries
    rw [List.length_cons, parseEntriesF]
    rw [if_neg hkl, if_neg hlen]
    simp [hu]
  · intro hk0 hku
    have hkl : ¬(k.length = 0) := fun h => hk0 (List.eq_nil_of_length_eq_zero h)
    unfold parseEntries
    rw [List.length_cons, parseEntriesF]
    rw [if_neg hkl, if_neg (by omega)]
    simp [List.take_length, List.drop_length, hku]
  · intro hk0 hku hvl hwl
    have hkl : ¬(k.length = 0) := fun h => hk0 (List.eq_nil_of_length_eq_zero h)
    unfold parseEntries
    rw [List.length_cons, parseEntriesF]
    rw [if_neg hkl, if_neg (by rw [List.length_append, List.length_cons]; omega)]
    simp [List.take_left, List.drop_left, hku, hvl, hwl]
  · intro hk0 hku hvl hwlen hu
    have hkl : ¬(k.length = 0) := fun h => hk0 (List.eq_nil_of_length_eq_zero h)
    unfold parseEntries
    rw [List.length_cons, parseEntriesF]
    rw [if_neg hkl, if_neg (by rw [List.length_append, List.length_cons]; omega)]
    simp [List.take_left, List.drop_left, hku, hvl, hwlen, hu]
  · intro hg1 hg2
    rw [parseEntries_entry k v1 _ [] hg1.1 hg1.2.1 hg1.2.2,
      parseEntries_entry k v2 _ (hmInsert [] k v1) hg2.1 hg2.2.1 hg2.2.2,
      parseEntries_sentinel]
    have h1 : hmInsert [] k v1 = [(k, v1)] := rfl
    rw [h1]
    have h2 : hmInsert [(k, v1)] k v2 = [(k, v2)] := by
      unfold hmInsert hmContains
      simp
    rw [h2]

theorem C6_witness : parseEntries [5, 107] [] = .error .TruncatedKey :=
  (C6_entry_walk [] [107] 5 0 [] [] none none).2.2.1 (by decide) (by decide)

/-- C1 (amended): round trip, restricted to stores whose keys are nonempty and
whose present values are nonempty (an empty-string value re-parses as an absent
value, and an empty key is read as the end-of-data sentinel).  For entries reached
from the empty store by successful try_insert calls, any iteration order used for
serialization (any permutation of the entry sequence), any secret including none,
and any padding bytes of the length the source draws at random, building from the
to_vec buffer with the same secret succeeds and yields a store with version 0, the
same secret, and the same key-to-optional-value collection. -/
theorem C1_round_trip (es es2 : Entries) (secret : Option Bytes) (pad : Bytes)
    (hr : Reachable es) (hp : es2.Perm es)
    (hne : ∀ e ∈ es, e.1 ≠ [] ∧ ∀ w, e.2 = some w → w ≠ [])
    (hpad : pad.length = 8185 - entriesLen es) :
    try_build secret (some (to_vec 0 es2 secret pad)) = .ok ⟨0, es2, secret⟩ ∧
    (∀ kk, hmGet es2 kk = hmGet es kk) := by
  have hwf := reachable_storeWF es hr
  have hwf2 := storeWF_perm es es2 hp hwf
  obtain ⟨hd2, hgood2, _⟩ := hwf2
  have hlen2 : entriesLen es2 = entriesLen es := (hp.map entryLen).sum_eq
  have hgoodAll : ∀ e ∈ es2, goodEntry e := by
    intro e he
    have hb := hgood2 e he
    have hn := hne e (hp.subset he)
    exact ⟨hn.1, hb.2.1, fun w hw => ⟨hn.2 w hw, (hb.2.2 w hw).2⟩⟩
  have hsz : entriesLen es + 1 ≤ 8186 := by
    have h86 : MCONFIG_SIZE - HEADER_SIZE = 8186 := rfl
    have := hwf.2.2
    omega
  have hlenv : (entries_to_vec es2 pad).length ≤ 8186 := by
    rw [entries_to_vec_length, hlen2, hpad]
    omega
  have hcore := round_trip_core es2 pad secret secret
    (deobfuscate_obfuscate _ secret) hd2 hgoodAll hlenv
  constructor
  · have hb : try_build secret (some (to_vec 0 es2 secret pad)) =
        Except.map (fun e => (⟨0, e, secret⟩ : MConfig))
          (try_build_loaded (to_vec 0 es2 secret pad) secret) := rfl
    rw [hb, hcore]
    rfl
  · exact fun kk => hmGet_perm hp hd2 kk

theorem C1_witness :
    try_build (some [84])
      (some (to_vec 0 [([107], some [118])] (some [84]) (List.replicate 8181 0)))
      = .ok ⟨0, [([107], some [118])], some [84]⟩ := by
  refine (C1_round_trip [([107], some [118])] [([107], some [118])] (some [84])
    (List.replicate 8181 0) ?_ (List.Perm.refl _) ?_ ?_).1
  · have h1 : Reachable ((try_insert [] [107] (some [118])).2) :=
      Reachable.insert [] [107] (some [118]) none Reachable.empty rfl
        (fun w hw => by cases hw; rfl) rfl
    exact h1
  · intro e he
    rw [List.mem_singleton.mp he]
    exact ⟨fun h => List.noConfusion h, fun w hw => by cases hw; exact fun h => List.noConfusion h⟩
  · rw [List.length_replicate]
    have h4 : entriesLen [([107], some [118])] = 4 := rfl
    omega

/-- C1 counterexample: the store produced by the single successful insert of key
"k" with the present empty-string value Some "" serializes (no secret, all-zero
padding) to a buffer that parses back to the valueless binding None: the decoded
collection differs from the original. -/
theorem C1_counterexample :
    (try_insert [] [107] (some [])).1 = .ok none ∧
    (try_insert [] [107] (some [])).2 = [([107], some [])] ∧
    try_build_loaded
      (to_vec 0 [([107], some [])] none (List.replicate 8182 0)) none
      = .ok [([107], none)] ∧
    ([([107], some [])] : Entries) ≠ [([107], none)] := by
  refine ⟨rfl, rfl, ?_, by decide⟩
  unfold to_vec
  have hlenR : (entries_to_vec [([107], some [])] (List.replicate 8182 0)).length ≤ 8186 := by
    rw [entries_to_vec_length, List.length_replicate]
    have h3 : entriesLen [([107], some [])] = 3 := rfl
    omega
  have hob : obfuscate (entries_to_vec [([107], some [])] (List.replicate 8182 0)) none =
      entries_to_vec [([107], some [])] (List.replicate 8182 0) := rfl
  rw [hob, try_build_loaded_header _ none hlenR]
  show parseEntries (entries_to_vec [([107], some [])] (List.replicate 8182 0)) [] =
    .ok [([107], none)]
  have hregion : entries_to_vec [([107], some [])] (List.replicate 8182 0) =
      encodeEntry ([107], none) ++ (0 :: List.replicate 8182 0) := rfl
  rw [hregion,
    parseEntries_entry [107] none _ [] (fun h => List.noConfusion h) rfl
      (fun w hw => by cases hw),
    parseEntries_sentinel]
  rfl

/-- C2 (amended): guaranteed wrong-secret divergence does not hold.  When the two
secrets generate the same cycled XOR stream — which happens for distinct secrets
such as "a" and "aa" — parsing a buffer serialized with secret A using secret
B ≠ A succeeds and silently reproduces the original nonempty entry collection,
rather than producing an error or a differing collection. -/
theorem C2_wrong_secret_no_divergence (es es2 : Entries) (A B : Bytes) (pad : Bytes)
    (hr : Reachable es) (hp : es2.Perm es)
    (hne : ∀ e ∈ es, e.1 ≠ [] ∧ ∀ w, e.2 = some w → w ≠ [])
    (hpad : pad.length = 8185 - entriesLen es)
    (_hAB : A ≠ B) (hcyc : cycleEq A B) (_hnonempty : es ≠ []) :
    try_build (some B) (some (to_vec 0 es2 (some A) pad)) = .ok ⟨0, es2, some B⟩ ∧
    (∀ kk, hmGet es2 kk = hmGet es kk) := by
  have hwf := reachable_storeWF es hr
  have hwf2 := storeWF_perm es es2 hp hwf
  obtain ⟨hd2, hgood2, _⟩ := hwf2
  have hlen2 : entriesLen es2 = entriesLen es := (hp.map entryLen).sum_eq
  have hgoodAll : ∀ e ∈ es2, goodEntry e := by
    intro e he
    have hb := hgood2 e he
    have hn := hne e (hp.subset he)
    exact ⟨hn.1, hb.2.1, fun w hw => ⟨hn.2 w hw, (hb.2.2 w hw).2⟩⟩
  have hsz : entriesLen es + 1 ≤ 8186 := by
    have h86 : MCONFIG_SIZE - HEADER_SIZE = 8186 := rfl
    have := hwf.2.2
    omega
  have hlenv : (entries_to_vec es2 pad).length ≤ 8186 := by
    rw [entries_to_vec_length, hlen2, hpad]
    omega
  have hundo : deobfuscate (obfuscate (entries_to_vec es2 pad) (some A)) (some B) =
      entries_to_vec es2 pad :=
    xor_buffer_cancel_cycleEq A B hcyc _
  have hcore := round_trip_core es2 pad (some A) (some B) hundo hd2 hgoodAll hlenv
  constructor
  · have hb : try_build (some B) (some (to_vec 0 es2 (some A) pad)) =
        Except.map (fun e => (⟨0, e, some B⟩ : MConfig))
          (try_build_loaded (to_vec 0 es2 (some A) pad) (some B)) := rfl
    rw [hb, hcore]
    rfl
  · exact fun kk => hmGet_perm hp hd2 kk

theorem C2_witness :
    ([97] : Bytes) ≠ [97, 97] ∧
    try_build (some [97, 97])
      (some (to_vec 0 [([107], none)] (some [97]) (List.replicate 8182 0)))
      = .ok ⟨0, [([107], none)], some [97, 97]⟩ := by
  refine ⟨by decide, ?_⟩
  refine (C2_wrong_secret_no_divergence [([107], none)] [([107], none)] [97] [97, 97]
    (List.replicate 8182 0) ?_ (List.Perm.refl _) ?_ ?_ (by decide) cycleEq_97 (by decide)).1
  · have h1 : Reachable ((try_insert [] [107] none).2) :=
      Reachable.insert [] [107] none none Reachable.empty rfl (fun w hw => by cases hw) rfl
    exact h1
  · intro e he
    rw [List.mem_singleton.mp he]
    exact ⟨fun h => List.noConfusion h, fun w hw => by cases hw⟩
  · rw [List.length_replicate]
    have h3 : entriesLen [([107], none)] = 3 := rfl
    omega

/-- C2 counterexample: with the nonempty collection {"k" ↦ none}, secret A = "a"
and secret B = "aa" (A ≠ B), serializing with A and parsing with B neither errors
nor changes any entry — it returns exactly the original collection, refuting the
claimed guaranteed divergence. -/
theorem C2_counterexample :
    ([97] : Bytes) ≠ [97, 97] ∧
    ([([107], none)] : Entries) ≠ [] ∧
    try_build_loaded
      (to_vec 0 [([107], none)] (some [97]) (List.replicate 8182 0)) (some [97, 97])
      = .ok [([107], none)] := by
  refine ⟨by decide, by decide, ?_⟩
  refine round_trip_core [([107], none)] (List.replicate 8182 0) (some [97]) (some [97, 97])
    (xor_buffer_cancel_cycleEq [97] [97, 97] cycleEq_97 _) (List.pairwise_singleton ..) ?_ ?_
  · intro e he
    rw [List.mem_singleton.mp he]
    exact ⟨fun h => List.noConfusion h, rfl, fun w hw => by cases hw⟩
  · rw [entries_to_vec_length, List.length_replicate]
    have h3 : entriesLen [([107], none)] = 3 := rfl
    omega

/-- C9 (code bug witness): an 8192-byte buffer with valid magic and version whose
post-header region is exactly filled by 32 valueless entries (no sentinel) is
accepted by the builder, but the resulting store's encoded entries plus sentinel
need 8187 bytes — more than the 8186 available — so the size assertion inside
entries_to_vec is violated and to_vec on this reachable store panics. -/
theorem C9_boundary_breaks_size_assert :
    boundaryBuf.length = MCONFIG_SIZE ∧
    try_build_loaded boundaryBuf none = .ok boundaryEntries ∧
    ¬ entriesSizeAssert boundaryEntries := by
  have hlen : (encodeEntries boundaryEntries).length = 8186 := by
    rw [encodeEntries_length, boundary_entriesLen]
  refine ⟨?_, ?_, ?_⟩
  · unfold boundaryBuf
    rw [List.length_append, List.length_cons, hlen]
    rfl
  · unfold boundaryBuf
    rw [try_build_loaded_header _ none (by omega)]
    show parseEntries (encodeEntries boundaryEntries) [] = .ok boundaryEntries
    rw [← List.append_nil (encodeEntries boundaryEntries),
      parseEntries_entries boundaryEntries [] [] boundary_good, parseEntries_nil,
      foldl_hmInsert_fresh boundaryEntries [] (fun e _ => rfl) boundary_keysDistinct]
    rfl
  · unfold entriesSizeAssert
    rw [hlen]
    have h86 : MCONFIG_SIZE - HEADER_SIZE = 8186 := rfl
    omega

end MC
